import Mathlib

/-!
Verification of the canonical-JSON encoder and signable-envelope wrapper of
securesystemslib (file src/formats.py) against its natural-language
specification.  The Python functions `_canonical_string_encoder`,
`_encode_canonical`, `encode_canonical` and `make_signable` are shallowly
embedded below; each definition's doc comment names the source function and
lines it translates.
-/

set_option maxHeartbeats 1000000

/-- The structured values the encoder can meet, mirroring the Python values
`_encode_canonical` (formats.py 594-631) dispatches on: strings, booleans
(Python checks `object is True` / `object is False` before the integer test,
so booleans never reach the integer branch), `None`, arbitrary-precision
integers, sequences (list or tuple), and mappings with string keys in
insertion order.  The constructor `float` stands for any leaf outside the
closed kind set (a Python float or other foreign object); it carries the
`repr` text of that value, which the encoder never inspects except to build
the error message. -/
inductive PyVal where
| str (s : String)
| bool (b : Bool)
| null
| int (n : Int)
| arr (xs : List PyVal)
| obj (kvs : List (String × PyVal))
| float (r : String)

mutual
/-- Size measure used for termination of the recursions below. -/
def pySize : PyVal → Nat
| .arr xs => 1 + pySizeList xs
| .obj kvs => 1 + pySizeKvs kvs
| _ => 1
def pySizeList : List PyVal → Nat
| [] => 0
| x :: t => pySize x + pySizeList t + 1
def pySizeKvs : List (String × PyVal) → Nat
| [] => 0
| (_, v) :: t => pySize v + pySizeKvs t + 1
end

/-- Computable lexicographic comparison of character lists by code point,
the comparison Python applies to the strings themselves.  Proved below to
coincide with the order on `String`. -/
def charListLe : List Char → List Char → Bool
| [], _ => true
| _ :: _, [] => false
| a :: as, b :: bs => if a < b then true else if b < a then false else charListLe as bs

/-- Ordering used by Python's `sorted(six.iteritems(object))` in
`_encode_canonical` (formats.py 616): pairs are compared as tuples, hence by
the string key first; Python compares strings by code point
(ordinal, not locale-aware), which is also the byte order of their UTF-8
encodings.  Since the keys of a Python dict are pairwise distinct, the tuple
comparison never reaches the second component, so comparing by key alone is
faithful. -/
def keyLe (a b : String × PyVal) : Prop := charListLe a.1.data b.1.data = true

instance : DecidableRel keyLe :=
  fun a b => inferInstanceAs (Decidable (charListLe a.1.data b.1.data = true))

instance : IsTotal (String × PyVal) keyLe := by
  constructor
  intro a b
  show charListLe a.1.data b.1.data = true ∨ charListLe b.1.data a.1.data = true
  generalize a.1.data = x
  generalize b.1.data = y
  induction x generalizing y with
  | nil => exact Or.inl rfl
  | cons c cs ih =>
    cases y with
    | nil => exact Or.inr rfl
    | cons d ds =>
      rcases lt_trichotomy c d with h | h | h
      · exact Or.inl (by simp [charListLe, h])
      · subst h
        rcases ih ds with h2 | h2
        · exact Or.inl (by simp [charListLe, h2])
        · exact Or.inr (by simp [charListLe, h2])
      · exact Or.inr (by simp [charListLe, h])

instance : IsTrans (String × PyVal) keyLe := by
  constructor
  intro a b c hab hbc
  show charListLe a.1.data c.1.data = true
  rw [keyLe] at hab hbc
  revert hab hbc
  generalize a.1.data = x
  generalize b.1.data = y
  generalize c.1.data = z
  induction x generalizing y z with
  | nil => intro _ _; rfl
  | cons u us ih =>
    intro hab hbc
    cases y with
    | nil => simp [charListLe] at hab
    | cons v vs =>
      cases z with
      | nil => simp [charListLe] at hbc
      | cons w ws =>
        simp only [charListLe] at hab hbc ⊢
        rcases lt_trichotomy u v with huv | huv | huv
        · rcases lt_trichotomy v w with hvw | hvw | hvw
          · simp [lt_trans huv hvw]
          · subst hvw; simp [huv]
          · rw [if_neg (lt_asymm hvw), if_pos hvw] at hbc; exact absurd hbc (by simp)
        · subst huv
          rcases lt_trichotomy u w with hvw | hvw | hvw
          · simp [hvw]
          · subst hvw
            simp only [lt_irrefl, if_neg, if_false] at hab hbc ⊢
            exact ih vs ws hab hbc
          · rw [if_neg (lt_asymm hvw), if_pos hvw] at hbc; exact absurd hbc (by simp)
        · rw [if_neg (lt_asymm huv), if_pos huv] at hab; exact absurd hab (by simp)

/-- The key-sorted entry list of a mapping: the embedding of
`sorted(six.iteritems(object))` in `_encode_canonical` (formats.py 616). -/
def sortKVs (kvs : List (String × PyVal)) : List (String × PyVal) :=
  List.insertionSort keyLe kvs

/-- Per-character action of `re.sub(r'(["\\])', r'\\\1', string)` in
`_canonical_string_encoder` (formats.py 589): a double quote or a backslash
is prefixed with a backslash, every other character is left unchanged. -/
def escapeChar (c : Char) : List Char :=
  if c = '"' ∨ c = '\\' then ['\\', c] else [c]

/-- Embedding of `_canonical_string_encoder` (formats.py 570-591): the
escaped text enclosed in double quotes. -/
def canonical_string_encoder (s : String) : String :=
  String.mk ('"' :: (s.data.map escapeChar).flatten ++ ['"'])

/-- Little-endian base-10 digit list, computed with explicit fuel so that it
is structurally recursive (the first argument only needs to satisfy
`n ≤ fuel`); it agrees with Mathlib's `Nat.digits 10` (proved below). -/
def natDigitsAux : Nat → Nat → List Nat
| _, 0 => []
| 0, _ + 1 => []
| f + 1, n + 1 => (n + 1) % 10 :: natDigitsAux f ((n + 1) / 10)

/-- Little-endian base-10 digits of a natural number. -/
def natDigits (n : Nat) : List Nat := natDigitsAux n n

/-- Decimal digit characters of a natural number, most significant first;
`0` is printed as the single digit `0`. -/
def natReprChars (n : Nat) : List Char :=
  if n = 0 then ['0'] else (natDigits n).reverse.map Nat.digitChar

/-- Character list of Python's `str` on an integer: an optional leading
minus sign followed by the decimal digits of the absolute value. -/
def intReprChars (n : Int) : List Char :=
  if n < 0 then '-' :: natReprChars n.natAbs else natReprChars n.natAbs

/-- Embedding of `str(object)` applied to a Python integer in
`_encode_canonical` (formats.py 607): decimal notation, optional leading
minus, no leading zeros, no exponent. -/
def intRepr (n : Int) : String := String.mk (intReprChars n)

mutual
/-- Embedding of the recursive helper `_encode_canonical` (formats.py
594-631).  The Python helper pushes output fragments to `output_function`
in left-to-right order and raises on a value outside the closed kind set;
here the first component collects, in order, the fragments this call emits
before returning or raising, and the second component is the offending
value when the call raises (the Python `FormatError` message embeds
`repr` of that value, which the `float` constructor carries). -/
def encAux : PyVal → List String × Option PyVal
| .str s => ([canonical_string_encoder s], none)
| .bool b => ([if b then "true" else "false"], none)
| .null => (["null"], none)
| .int n => ([intRepr n], none)
| .arr xs =>
    match encList xs with
    | (fs, some e) => ("[" :: fs, some e)
    | (fs, none) => ("[" :: fs ++ ["]"], none)
| .obj kvs =>
    match encItems (sortKVs kvs) with
    | (fs, some e) => ("\x7b" :: fs, some e)
    | (fs, none) => ("\x7b" :: fs ++ ["\x7d"], none)
| .float r => ([], some (.float r))
termination_by v => pySize v
decreasing_by
all_goals simp only [pySize, pySizeList, pySizeKvs]
· omega
· have hsum : ∀ m : List (String × PyVal),
      pySizeKvs m = (m.map (fun p => pySize p.2 + 1)).sum := by
    intro m
    induction m with
    | nil => rfl
    | cons p t ih => simp [pySizeKvs, ih]; omega
  have hperm : List.Perm (sortKVs kvs) kvs := List.perm_insertionSort keyLe kvs
  have : pySizeKvs (sortKVs kvs) = pySizeKvs kvs := by
    rw [hsum, hsum]
    exact (hperm.map (fun p => pySize p.2 + 1)).sum_eq
  omega

/-- The loop of `_encode_canonical` over the elements of a list or tuple
(formats.py 602-608 of the sequence branch): every element but the last is
encoded and followed by the fragment containing a comma; encoding stops at
the first element that raises. -/
def encList : List PyVal → List String × Option PyVal
| [] => ([], none)
| [x] => encAux x
| x :: y :: rest =>
    match encAux x with
    | (fs, some e) => (fs, some e)
    | (fs, none) =>
        match encList (y :: rest) with
        | (fs2, r) => (fs ++ "," :: fs2, r)
termination_by xs => pySizeList xs
decreasing_by
all_goals simp only [pySize, pySizeList, pySizeKvs]
· have : 1 ≤ pySize x := by cases x <;> simp [pySize]
  omega
· have : 1 ≤ pySize x := by cases x <;> simp [pySize]
  omega
· omega

/-- The loop of `_encode_canonical` over the sorted items of a mapping
(formats.py 616-628): each entry contributes the encoded key, a colon and
the encoded value, with a comma after every entry but the last; encoding
stops at the first value that raises (the key and colon of that entry have
already been emitted). -/
def encItems : List (String × PyVal) → List String × Option PyVal
| [] => ([], none)
| [(k, v)] =>
    match encAux v with
    | (fs, r) => (canonical_string_encoder k :: ":" :: fs, r)
| (k, v) :: q :: rest =>
    match encAux v with
    | (fs, some e) => (canonical_string_encoder k :: ":" :: fs, some e)
    | (fs, none) =>
        match encItems (q :: rest) with
        | (fs2, r) => (canonical_string_encoder k :: ":" :: fs ++ "," :: fs2, r)
termination_by l => pySizeKvs l
decreasing_by
all_goals simp only [pySize, pySizeList, pySizeKvs]
· omega
· omega
· omega
end

/-- Embedding of `encode_canonical` (formats.py 634-702) when no
`output_function` is supplied: the fragments are appended to an internal
list and joined into the returned string; a `FormatError` aborts the call
before anything is returned. -/
def encode_canonical (v : PyVal) : Except PyVal String :=
  match encAux v with
  | (_, some e) => .error e
  | (fs, none) => .ok (String.join fs)

/-- Embedding of `encode_canonical` when a caller supplies an
`output_function` sink: the first component lists, in call order, the
fragments the sink has received by the time the call returns or raises,
and the second is the offending value if a `FormatError` was raised. -/
def encode_canonical_sink (v : PyVal) : List String × Option PyVal := encAux v

/-- Return value of `encode_canonical` in both modes: with a sink the
function falls through its final `if result is not None` test and returns
Python's `None` (modelled `none`); without a sink it returns the joined
string. -/
def encode_canonical_ret (v : PyVal) (hasSink : Bool) : Except PyVal (Option String) :=
  match encAux v with
  | (_, some e) => .error e
  | (fs, none) => .ok (if hasSink then none else some (String.join fs))

mutual
/-- The `repr` texts of all out-of-kind leaves (floats and other foreign
objects, the `PyVal.float` constructor) in a value, in tree order.  The
encoder succeeds exactly when this list is empty (proved below). -/
def floats : PyVal → List String
| .float r => [r]
| .arr xs => floatsList xs
| .obj kvs => floatsKvs kvs
| _ => []
termination_by v => pySize v
decreasing_by
all_goals simp only [pySize, pySizeList, pySizeKvs]
all_goals omega

/-- Out-of-kind leaves of the elements of a sequence. -/
def floatsList : List PyVal → List String
| [] => []
| x :: t => floats x ++ floatsList t
termination_by xs => pySizeList xs
decreasing_by
all_goals simp only [pySize, pySizeList, pySizeKvs]
all_goals omega

/-- Out-of-kind leaves of the values of a mapping's entry list. -/
def floatsKvs : List (String × PyVal) → List String
| [] => []
| (_, v) :: t => floats v ++ floatsKvs t
termination_by l => pySizeKvs l
decreasing_by
all_goals simp only [pySize, pySizeList, pySizeKvs]
all_goals omega
end

mutual
/-- Two trees denote the same logical structured value: equal leaves, equal
sequences elementwise, and mappings that agree as key-to-value collections
once their entries are put in canonical key order (insertion order is
irrelevant to the logical value, per the data model of the spec). -/
def logicEq : PyVal → PyVal → Bool
| .str a, .str b => a == b
| .bool a, .bool b => a == b
| .null, .null => true
| .int a, .int b => a == b
| .float a, .float b => a == b
| .arr xs, .arr ys => logicEqList xs ys
| .obj xs, .obj ys => logicEqKvs (sortKVs xs) (sortKVs ys)
| _, _ => false
termination_by v _ => pySize v
decreasing_by
all_goals simp only [pySize, pySizeList, pySizeKvs]
· omega
· have hsum : ∀ m : List (String × PyVal),
      pySizeKvs m = (m.map (fun p => pySize p.2 + 1)).sum := by
    intro m
    induction m with
    | nil => rfl
    | cons p t ih => simp [pySizeKvs, ih]; omega
  have hperm : List.Perm (sortKVs xs) xs := List.perm_insertionSort keyLe xs
  have : pySizeKvs (sortKVs xs) = pySizeKvs xs := by
    rw [hsum, hsum]
    exact (hperm.map (fun p => pySize p.2 + 1)).sum_eq
  omega

/-- Elementwise logical equality of sequences. -/
def logicEqList : List PyVal → List PyVal → Bool
| [], [] => true
| x :: xs, y :: ys => logicEq x y && logicEqList xs ys
| _, _ => false
termination_by xs _ => pySizeList xs
decreasing_by
all_goals simp only [pySize, pySizeList, pySizeKvs]
all_goals omega

/-- Pointwise logical equality of entry lists: equal keys and logically
equal values. -/
def logicEqKvs : List (String × PyVal) → List (String × PyVal) → Bool
| [], [] => true
| (k, v) :: xs, (k2, v2) :: ys => k == k2 && logicEq v v2 && logicEqKvs xs ys
| _, _ => false
termination_by l _ => pySizeKvs l
decreasing_by
all_goals simp only [pySize, pySizeList, pySizeKvs]
all_goals omega
end

/-- Joins encoded pieces with commas, the separator grammar of canonical
JSON sequences and mappings. -/
def comma_join : List String → String
| [] => ""
| [s] => s
| s :: t => s ++ "," ++ comma_join t

mutual
/-- Modelled from the spec, for the refinement claim about the two output
modes: a buffering implementation of the canonical encoder that builds the
result string compositionally (string, boolean, null and integer atoms;
bracketed comma-joined sequences; brace-enclosed comma-joined key-sorted
entries; failure on any out-of-kind value).  It is compared below with the
sink-based embedding `encAux` of `_encode_canonical`. -/
def specEncode : PyVal → Except PyVal String
| .str s => .ok (canonical_string_encoder s)
| .bool b => .ok (if b then "true" else "false")
| .null => .ok ("null")
| .int n => .ok (intRepr n)
| .arr xs =>
    match specEncodeList xs with
    | .error e => .error e
    | .ok parts => .ok ("[" ++ comma_join parts ++ "]")
| .obj kvs =>
    match specEncodeItems (sortKVs kvs) with
    | .error e => .error e
    | .ok parts => .ok ("\x7b" ++ comma_join parts ++ "\x7d")
| .float r => .error (.float r)
termination_by v => pySize v
decreasing_by
all_goals simp only [pySize, pySizeList, pySizeKvs]
· omega
· have hsum : ∀ m : List (String × PyVal),
      pySizeKvs m = (m.map (fun p => pySize p.2 + 1)).sum := by
    intro m
    induction m with
    | nil => rfl
    | cons p t ih => simp [pySizeKvs, ih]; omega
  have hperm : List.Perm (sortKVs kvs) kvs := List.perm_insertionSort keyLe kvs
  have : pySizeKvs (sortKVs kvs) = pySizeKvs kvs := by
    rw [hsum, hsum]
    exact (hperm.map (fun p => pySize p.2 + 1)).sum_eq
  omega

/-- Buffering encoder for the elements of a sequence, failing at the first
element that cannot be encoded. -/
def specEncodeList : List PyVal → Except PyVal (List String)
| [] => .ok []
| x :: t =>
    match specEncode x with
    | .error e => .error e
    | .ok s =>
        match specEncodeList t with
        | .error e => .error e
        | .ok parts => .ok (s :: parts)
termination_by xs => pySizeList xs
decreasing_by
all_goals simp only [pySize, pySizeList, pySizeKvs]
all_goals omega

/-- Buffering encoder for the entries of a mapping, each rendered as
encoded key, colon, encoded value. -/
def specEncodeItems : List (String × PyVal) → Except PyVal (List String)
| [] => .ok []
| (k, v) :: t =>
    match specEncode v with
    | .error e => .error e
    | .ok s =>
        match specEncodeItems t with
        | .error e => .error e
        | .ok parts => .ok ((canonical_string_encoder k ++ ":" ++ s) :: parts)
termination_by l => pySizeKvs l
decreasing_by
all_goals simp only [pySize, pySizeList, pySizeKvs]
all_goals omega
end

/-- Whether a value already has the signable-envelope shape tested by
`make_signable` (formats.py 564): it is a dict and carries a key named
signed. -/
def isEnvelope : PyVal → Bool
| .obj kvs => kvs.any (fun p => p.1 == "signed")
| _ => false

/-- Embedding of `make_signable` (formats.py 538-567): a value that is not
a dict carrying a signed key is wrapped into a fresh envelope dict with the
value under the signed key and an empty signature list under the signatures
key; an already-wrapped value is returned unchanged. -/
def make_signable (v : PyVal) : PyVal :=
  if isEnvelope v then v else .obj [("signed", v), ("signatures", .arr [])]

/-- The canonical text of one value: the concatenation, in order, of the
fragments `_encode_canonical` emits for it (meaningful when the value
encodes without error). -/
def enc_str (v : PyVal) : String := String.join (encAux v).1

/-- The canonical text of one mapping entry: encoded key, colon, encoded
value. -/
def entry_str (p : String × PyVal) : String :=
  canonical_string_encoder p.1 ++ ":" ++ enc_str p.2

theorem pySize_pos (v : PyVal) : 1 ≤ pySize v := by
  cases v <;> simp [pySize]

theorem pySizeKvs_eq_sum (l : List (String × PyVal)) :
    pySizeKvs l = (l.map (fun p => pySize p.2 + 1)).sum := by
  induction l with
  | nil => rfl
  | cons p t ih => simp [pySizeKvs, ih]; omega

theorem pySizeKvs_sortKVs (l : List (String × PyVal)) :
    pySizeKvs (sortKVs l) = pySizeKvs l := by
  rw [pySizeKvs_eq_sum, pySizeKvs_eq_sum]
  exact ((List.perm_insertionSort keyLe l).map (fun p => pySize p.2 + 1)).sum_eq

theorem sortKVs_perm (l : List (String × PyVal)) : List.Perm (sortKVs l) l :=
  List.perm_insertionSort keyLe l

theorem string_join_nil : String.join [] = "" := rfl

theorem string_join_cons (s : String) (t : List String) :
    String.join (s :: t) = s ++ String.join t := by
  apply String.ext
  simp

theorem string_join_append (a b : List String) :
    String.join (a ++ b) = String.join a ++ String.join b := by
  apply String.ext
  simp

theorem string_join_singleton (s : String) : String.join [s] = s := by
  rw [string_join_cons, string_join_nil, String.append_empty]

theorem charListLe_iff_not_lex (x y : List Char) :
    charListLe x y = true ↔ ¬ List.Lex (· < ·) y x := by
  induction x generalizing y with
  | nil =>
    simp only [charListLe, true_iff]
    intro h
    cases h
  | cons a as ih =>
    cases y with
    | nil =>
      simp only [charListLe]
      exact iff_of_false (by simp) (fun h => h List.Lex.nil)
    | cons b bs =>
      simp only [charListLe]
      rcases lt_trichotomy a b with h | h | h
      · rw [if_pos h]
        simp only [true_iff]
        intro hlex
        cases hlex with
        | cons h2 => exact absurd h (lt_irrefl a)
        | rel h2 => exact absurd (lt_trans h h2) (lt_irrefl a)
      · subst h
        rw [if_neg (lt_irrefl a), if_neg (lt_irrefl a)]
        rw [ih bs]
        constructor
        · intro h hlex
          cases hlex with
          | cons h2 => exact h h2
          | rel h2 => exact absurd h2 (lt_irrefl a)
        · intro h hlex
          exact h (List.Lex.cons hlex)
      · rw [if_neg (lt_asymm h), if_pos h]
        exact iff_of_false (by simp) (not_not_intro (List.Lex.rel h))

theorem charListLe_iff_le (a b : String) :
    charListLe a.data b.data = true ↔ a ≤ b := by
  rw [charListLe_iff_not_lex, String.le_iff_toList_le]
  constructor
  · intro h
    apply le_of_not_lt
    intro hlt
    exact h hlt
  · intro h hlex
    exact absurd h (not_le_of_lt hlex)

theorem keyLe_iff (p q : String × PyVal) : keyLe p q ↔ p.1 ≤ q.1 :=
  charListLe_iff_le p.1 q.1

theorem sortKVs_sorted (l : List (String × PyVal)) :
    List.Sorted keyLe (sortKVs l) :=
  List.sorted_insertionSort keyLe l

theorem sortKVs_keys_sorted (l : List (String × PyVal)) :
    List.Sorted (fun a b : String => a ≤ b) ((sortKVs l).map Prod.fst) := by
  rw [List.Sorted, List.pairwise_map]
  exact (sortKVs_sorted l).imp (fun hab => (keyLe_iff _ _).1 hab)

theorem sortKVs_sorted_strict (l : List (String × PyVal))
    (hn : (l.map Prod.fst).Nodup) :
    List.Pairwise (fun a b : String × PyVal => a.1 < b.1) (sortKVs l) := by
  have hn2 : ((sortKVs l).map Prod.fst).Nodup :=
    (((sortKVs_perm l).map Prod.fst).nodup_iff).2 hn
  rw [List.Nodup, List.pairwise_map] at hn2
  exact ((sortKVs_sorted l).and hn2).imp
    (fun hab => lt_of_le_of_ne ((keyLe_iff _ _).1 hab.1) hab.2)

theorem sortKVs_eq_of_perm (l l2 : List (String × PyVal))
    (hp : List.Perm l l2) (hn : (l.map Prod.fst).Nodup) :
    sortKVs l = sortKVs l2 := by
  have hn2 : (l2.map Prod.fst).Nodup := ((hp.map Prod.fst).nodup_iff).1 hn
  have hperm : List.Perm (sortKVs l) (sortKVs l2) :=
    ((sortKVs_perm l).trans hp).trans (sortKVs_perm l2).symm
  exact @List.eq_of_perm_of_sorted (String × PyVal) (fun a b => a.1 < b.1)
    ⟨fun a b h h2 => absurd h2 (lt_asymm h)⟩ _ _ hperm
    (sortKVs_sorted_strict l hn) (sortKVs_sorted_strict l2 hn2)

theorem floatsList_cons (x : PyVal) (t : List PyVal) :
    floatsList (x :: t) = floats x ++ floatsList t := by
  simp only [floatsList]

theorem floatsKvs_cons (p : String × PyVal) (t : List (String × PyVal)) :
    floatsKvs (p :: t) = floats p.2 ++ floatsKvs t := by
  obtain ⟨k, v⟩ := p
  simp only [floatsKvs]

theorem comma_join_cons_cons (s p : String) (t : List String) :
    comma_join (s :: p :: t) = s ++ "," ++ comma_join (p :: t) := by
  simp [comma_join]

theorem floatsKvs_eq_flatten (l : List (String × PyVal)) :
    floatsKvs l = (l.map (fun p => floats p.2)).flatten := by
  induction l with
  | nil => simp [floatsKvs]
  | cons p t ih =>
    obtain ⟨k, v⟩ := p
    simp [floatsKvs, ih]

theorem mem_floatsKvs_sortKVs (r : String) (kvs : List (String × PyVal)) :
    r ∈ floatsKvs (sortKVs kvs) ↔ r ∈ floatsKvs kvs := by
  rw [floatsKvs_eq_flatten, floatsKvs_eq_flatten]
  constructor <;> intro h <;> rcases List.mem_flatten.1 h with ⟨s, hs, hr⟩
  · exact List.mem_flatten.2 ⟨s, ((sortKVs_perm kvs).map (fun p => floats p.2)).mem_iff.1 hs, hr⟩
  · exact List.mem_flatten.2 ⟨s, ((sortKVs_perm kvs).map (fun p => floats p.2)).mem_iff.2 hs, hr⟩

theorem floatsKvs_sortKVs_eq_nil (kvs : List (String × PyVal)) :
    floatsKvs (sortKVs kvs) = [] ↔ floatsKvs kvs = [] := by
  rw [List.eq_nil_iff_forall_not_mem, List.eq_nil_iff_forall_not_mem]
  constructor <;> intro h r hr
  · exact h r ((mem_floatsKvs_sortKVs r kvs).2 hr)
  · exact h r ((mem_floatsKvs_sortKVs r kvs).1 hr)

theorem enc_spec (n : Nat) :
    (∀ v, pySize v ≤ n →
      (∀ fs, encAux v = (fs, none) →
        specEncode v = .ok (String.join fs) ∧ floats v = []) ∧
      (∀ fs e, encAux v = (fs, some e) →
        specEncode v = .error e ∧ ∃ r, e = PyVal.float r ∧ r ∈ floats v)) ∧
    (∀ xs, pySizeList xs ≤ n →
      (∀ fs, encList xs = (fs, none) →
        ∃ parts, specEncodeList xs = .ok parts ∧ String.join fs = comma_join parts ∧
          parts.length = xs.length ∧ floatsList xs = []) ∧
      (∀ fs e, encList xs = (fs, some e) →
        specEncodeList xs = .error e ∧ ∃ r, e = PyVal.float r ∧ r ∈ floatsList xs)) ∧
    (∀ l, pySizeKvs l ≤ n →
      (∀ fs, encItems l = (fs, none) →
        ∃ parts, specEncodeItems l = .ok parts ∧ String.join fs = comma_join parts ∧
          parts.length = l.length ∧ floatsKvs l = []) ∧
      (∀ fs e, encItems l = (fs, some e) →
        specEncodeItems l = .error e ∧ ∃ r, e = PyVal.float r ∧ r ∈ floatsKvs l)) := by
  induction n with
  | zero =>
    refine ⟨?_, ?_, ?_⟩
    · intro v hv
      have := pySize_pos v
      omega
    · intro xs hxs
      cases xs with
      | nil =>
        constructor
        · intro fs h
          simp only [encList, Prod.mk.injEq] at h
          refine ⟨[], by simp [specEncodeList], ?_, by simp, by simp [floatsList]⟩
          rw [← h.1]
          rfl
        · intro fs e h
          simp [encList] at h
      | cons x t =>
        simp only [pySizeList] at hxs
        omega
    · intro l hl
      cases l with
      | nil =>
        constructor
        · intro fs h
          simp only [encItems, Prod.mk.injEq] at h
          refine ⟨[], by simp [specEncodeItems], ?_, by simp, by simp [floatsKvs]⟩
          rw [← h.1]
          rfl
        · intro fs e h
          simp [encItems] at h
      | cons p t =>
        obtain ⟨k, v⟩ := p
        simp only [pySizeKvs] at hl
        omega
  | succ n ih =>
    obtain ⟨ihV, ihL, ihK⟩ := ih
    refine ⟨?_, ?_, ?_⟩
    · intro v hv
      cases v with
      | str s =>
        constructor
        · intro fs h
          simp only [encAux, Prod.mk.injEq] at h
          rw [← h.1]
          exact ⟨by simp only [specEncode, string_join_singleton], by simp [floats]⟩
        · intro fs e h
          simp [encAux] at h
      | bool b =>
        constructor
        · intro fs h
          simp only [encAux, Prod.mk.injEq] at h
          rw [← h.1]
          exact ⟨by simp only [specEncode, string_join_singleton], by simp [floats]⟩
        · intro fs e h
          simp [encAux] at h
      | null =>
        constructor
        · intro fs h
          simp only [encAux, Prod.mk.injEq] at h
          rw [← h.1]
          exact ⟨by simp only [specEncode, string_join_singleton], by simp [floats]⟩
        · intro fs e h
          simp [encAux] at h
      | int m =>
        constructor
        · intro fs h
          simp only [encAux, Prod.mk.injEq] at h
          rw [← h.1]
          exact ⟨by simp only [specEncode, string_join_singleton], by simp [floats]⟩
        · intro fs e h
          simp [encAux] at h
      | float r =>
        constructor
        · intro fs h
          simp [encAux] at h
        · intro fs e h
          simp only [encAux, Prod.mk.injEq, Option.some.injEq] at h
          rw [← h.2]
          exact ⟨by simp only [specEncode], r, rfl, by simp [floats]⟩
      | arr xs =>
        have hx : pySizeList xs ≤ n := by
          simp only [pySize] at hv
          omega
        obtain ⟨hOk, hErr⟩ := ihL xs hx
        constructor
        · intro fs h
          rcases hE : encList xs with ⟨fs2, err⟩
          cases err with
          | none =>
            have hA : encAux (.arr xs) = ("[" :: fs2 ++ ["]"], none) := by
              simp only [encAux, hE]
            rw [hA, Prod.mk.injEq] at h
            rw [← h.1]
            obtain ⟨parts, hsp, hjoin, hlen, hfl⟩ := hOk fs2 hE
            constructor
            · simp only [specEncode, hsp]
              rw [string_join_append, string_join_cons, string_join_singleton, hjoin]
            · simp only [floats]
              exact hfl
          | some e2 =>
            have hA : encAux (.arr xs) = ("[" :: fs2, some e2) := by
              simp only [encAux, hE]
            rw [hA] at h
            simp at h
        · intro fs e h
          rcases hE : encList xs with ⟨fs2, err⟩
          cases err with
          | none =>
            have hA : encAux (.arr xs) = ("[" :: fs2 ++ ["]"], none) := by
              simp only [encAux, hE]
            rw [hA] at h
            simp at h
          | some e2 =>
            have hA : encAux (.arr xs) = ("[" :: fs2, some e2) := by
              simp only [encAux, hE]
            rw [hA, Prod.mk.injEq, Option.some.injEq] at h
            obtain ⟨hsp, r, hr, hmem⟩ := hErr fs2 e2 hE
            rw [← h.2]
            refine ⟨by simp only [specEncode, hsp], r, hr, ?_⟩
            simp only [floats]
            exact hmem
      | obj kvs =>
        have hk : pySizeKvs (sortKVs kvs) ≤ n := by
          simp only [pySize] at hv
          rw [pySizeKvs_sortKVs]
          omega
        obtain ⟨hOk, hErr⟩ := ihK (sortKVs kvs) hk
        constructor
        · intro fs h
          rcases hE : encItems (sortKVs kvs) with ⟨fs2, err⟩
          cases err with
          | none =>
            have hA : encAux (.obj kvs) = ("\x7b" :: fs2 ++ ["\x7d"], none) := by
              simp only [encAux, hE]
            rw [hA, Prod.mk.injEq] at h
            rw [← h.1]
            obtain ⟨parts, hsp, hjoin, hlen, hfl⟩ := hOk fs2 hE
            constructor
            · simp only [specEncode, hsp]
              rw [string_join_append, string_join_cons, string_join_singleton, hjoin]
            · simp only [floats]
              exact (floatsKvs_sortKVs_eq_nil kvs).1 hfl
          | some e2 =>
            have hA : encAux (.obj kvs) = ("\x7b" :: fs2, some e2) := by
              simp only [encAux, hE]
            rw [hA] at h
            simp at h
        · intro fs e h
          rcases hE : encItems (sortKVs kvs) with ⟨fs2, err⟩
          cases err with
          | none =>
            have hA : encAux (.obj kvs) = ("\x7b" :: fs2 ++ ["\x7d"], none) := by
              simp only [encAux, hE]
            rw [hA] at h
            simp at h
          | some e2 =>
            have hA : encAux (.obj kvs) = ("\x7b" :: fs2, some e2) := by
              simp only [encAux, hE]
            rw [hA, Prod.mk.injEq, Option.some.injEq] at h
            obtain ⟨hsp, r, hr, hmem⟩ := hErr fs2 e2 hE
            rw [← h.2]
            refine ⟨by simp only [specEncode, hsp], r, hr, ?_⟩
            simp only [floats]
            exact (mem_floatsKvs_sortKVs r kvs).1 hmem
    · intro xs hxs
      cases xs with
      | nil =>
        constructor
        · intro fs h
          simp only [encList, Prod.mk.injEq] at h
          refine ⟨[], by simp [specEncodeList], ?_, by simp, by simp [floatsList]⟩
          rw [← h.1]
          rfl
        · intro fs e h
          simp [encList] at h
      | cons x t =>
        cases t with
        | nil =>
          have hx : pySize x ≤ n := by
            simp only [pySizeList] at hxs
            omega
          obtain ⟨hVOk, hVErr⟩ := ihV x hx
          constructor
          · intro fs h
            rw [show encList [x] = encAux x from by simp only [encList]] at h
            obtain ⟨hsp, hfl⟩ := hVOk fs h
            refine ⟨[String.join fs], ?_, ?_, by simp, by simp [floatsList, hfl]⟩
            · simp only [specEncodeList, hsp]
            · simp [comma_join]
          · intro fs e h
            rw [show encList [x] = encAux x from by simp only [encList]] at h
            obtain ⟨hsp, r, hr, hmem⟩ := hVErr fs e h
            refine ⟨by simp only [specEncodeList, hsp], r, hr, ?_⟩
            rw [floatsList_cons]
            exact List.mem_append_left _ hmem
        | cons y rest =>
          have hx : pySize x ≤ n := by
            have h1 := pySize_pos y
            simp only [pySizeList] at hxs
            omega
          have hyr : pySizeList (y :: rest) ≤ n := by
            have h1 := pySize_pos x
            simp only [pySizeList] at hxs ⊢
            omega
          obtain ⟨hVOk, hVErr⟩ := ihV x hx
          obtain ⟨hLOk, hLErr⟩ := ihL (y :: rest) hyr
          constructor
          · intro fs h
            rcases hE : encAux x with ⟨fs1, err1⟩
            cases err1 with
            | some e1 =>
              have hA : encList (x :: y :: rest) = (fs1, some e1) := by
                simp only [encList, hE]
              rw [hA] at h
              simp at h
            | none =>
              rcases hE2 : encList (y :: rest) with ⟨fs2, err2⟩
              cases err2 with
              | some e2 =>
                have hA : encList (x :: y :: rest) = (fs1 ++ "," :: fs2, some e2) := by
                  simp only [encList, hE, hE2]
                rw [hA] at h
                simp at h
              | none =>
                have hA : encList (x :: y :: rest) = (fs1 ++ "," :: fs2, none) := by
                  simp only [encList, hE, hE2]
                rw [hA, Prod.mk.injEq] at h
                rw [← h.1]
                obtain ⟨hsp1, hfl1⟩ := hVOk fs1 hE
                obtain ⟨parts2, hsp2, hjoin2, hlen2, hfl2⟩ := hLOk fs2 hE2
                obtain ⟨p2, t2, rfl⟩ : ∃ p2 t2, parts2 = p2 :: t2 := by
                  cases parts2 with
                  | nil => simp at hlen2
                  | cons p2 t2 => exact ⟨p2, t2, rfl⟩
                refine ⟨String.join fs1 :: p2 :: t2, ?_, ?_,
                  by simp only [List.length_cons] at hlen2 ⊢; omega, ?_⟩
                · simp only [specEncodeList, hsp1, hsp2]
                · rw [string_join_append, string_join_cons, hjoin2, comma_join_cons_cons]
                  simp [String.append_assoc]
                · rw [floatsList_cons, hfl1, hfl2]
                  rfl
          · intro fs e h
            rcases hE : encAux x with ⟨fs1, err1⟩
            cases err1 with
            | some e1 =>
              have hA : encList (x :: y :: rest) = (fs1, some e1) := by
                simp only [encList, hE]
              rw [hA, Prod.mk.injEq, Option.some.injEq] at h
              obtain ⟨hsp1, r, hr, hmem⟩ := hVErr fs1 e1 hE
              rw [← h.2]
              refine ⟨by simp only [specEncodeList, hsp1], r, hr, ?_⟩
              rw [floatsList_cons]
              exact List.mem_append_left _ hmem
            | none =>
              rcases hE2 : encList (y :: rest) with ⟨fs2, err2⟩
              cases err2 with
              | none =>
                have hA : encList (x :: y :: rest) = (fs1 ++ "," :: fs2, none) := by
                  simp only [encList, hE, hE2]
                rw [hA] at h
                simp at h
              | some e2 =>
                have hA : encList (x :: y :: rest) = (fs1 ++ "," :: fs2, some e2) := by
                  simp only [encList, hE, hE2]
                rw [hA, Prod.mk.injEq, Option.some.injEq] at h
                obtain ⟨hsp1, hfl1⟩ := hVOk fs1 hE
                obtain ⟨hsp2, r, hr, hmem⟩ := hLErr fs2 e2 hE2
                rw [← h.2]
                refine ⟨by simp only [specEncodeList, hsp1, hsp2], r, hr, ?_⟩
                rw [floatsList_cons]
                exact List.mem_append_right _ hmem
    · intro l hl
      cases l with
      | nil =>
        constructor
        · intro fs h
          simp only [encItems, Prod.mk.injEq] at h
          refine ⟨[], by simp [specEncodeItems], ?_, by simp, by simp [floatsKvs]⟩
          rw [← h.1]
          rfl
        · intro fs e h
          simp [encItems] at h
      | cons p t =>
        obtain ⟨k, v⟩ := p
        cases t with
        | nil =>
          have hx : pySize v ≤ n := by
            simp only [pySizeKvs] at hl
            omega
          obtain ⟨hVOk, hVErr⟩ := ihV v hx
          constructor
          · intro fs h
            rcases hE : encAux v with ⟨fs1, err1⟩
            cases err1 with
            | some e1 =>
              have hA : encItems [(k, v)] = (canonical_string_encoder k :: ":" :: fs1, some e1) := by
                simp only [encItems, hE]
              rw [hA] at h
              simp at h
            | none =>
              have hA : encItems [(k, v)] = (canonical_string_encoder k :: ":" :: fs1, none) := by
                simp only [encItems, hE]
              rw [hA, Prod.mk.injEq] at h
              rw [← h.1]
              obtain ⟨hsp, hfl⟩ := hVOk fs1 hE
              refine ⟨[canonical_string_encoder k ++ ":" ++ String.join fs1], ?_, ?_,
                by simp, by simp [floatsKvs, hfl]⟩
              · simp only [specEncodeItems, hsp]
              · rw [string_join_cons, string_join_cons, ← String.append_assoc]
                simp [comma_join]
          · intro fs e h
            rcases hE : encAux v with ⟨fs1, err1⟩
            cases err1 with
            | none =>
              have hA : encItems [(k, v)] = (canonical_string_encoder k :: ":" :: fs1, none) := by
                simp only [encItems, hE]
              rw [hA] at h
              simp at h
            | some e1 =>
              have hA : encItems [(k, v)] = (canonical_string_encoder k :: ":" :: fs1, some e1) := by
                simp only [encItems, hE]
              rw [hA, Prod.mk.injEq, Option.some.injEq] at h
              obtain ⟨hsp, r, hr, hmem⟩ := hVErr fs1 e1 hE
              rw [← h.2]
              refine ⟨by simp only [specEncodeItems, hsp], r, hr, ?_⟩
              rw [floatsKvs_cons]
              exact List.mem_append_left _ hmem
        | cons q rest =>
          obtain ⟨k2, v2⟩ := q
          have hx : pySize v ≤ n := by
            have h1 := pySize_pos v2
            simp only [pySizeKvs] at hl
            omega
          have hyr : pySizeKvs ((k2, v2) :: rest) ≤ n := by
            have h1 := pySize_pos v
            simp only [pySizeKvs] at hl ⊢
            omega
          obtain ⟨hVOk, hVErr⟩ := ihV v hx
          obtain ⟨hKOk, hKErr⟩ := ihK ((k2, v2) :: rest) hyr
          constructor
          · intro fs h
            rcases hE : encAux v with ⟨fs1, err1⟩
            cases err1 with
            | some e1 =>
              have hA : encItems ((k, v) :: (k2, v2) :: rest) =
                  (canonical_string_encoder k :: ":" :: fs1, some e1) := by
                simp only [encItems, hE]
              rw [hA] at h
              simp at h
            | none =>
              rcases hE2 : encItems ((k2, v2) :: rest) with ⟨fs2, err2⟩
              cases err2 with
              | some e2 =>
                have hA : encItems ((k, v) :: (k2, v2) :: rest) =
                    (canonical_string_encoder k :: ":" :: fs1 ++ "," :: fs2, some e2) := by
                  simp only [encItems, hE, hE2]
                rw [hA] at h
                simp at h
              | none =>
                have hA : encItems ((k, v) :: (k2, v2) :: rest) =
                    (canonical_string_encoder k :: ":" :: fs1 ++ "," :: fs2, none) := by
                  simp only [encItems, hE, hE2]
                rw [hA, Prod.mk.injEq] at h
                rw [← h.1]
                obtain ⟨hsp1, hfl1⟩ := hVOk fs1 hE
                obtain ⟨parts2, hsp2, hjoin2, hlen2, hfl2⟩ := hKOk fs2 hE2
                obtain ⟨p2, t2, rfl⟩ : ∃ p2 t2, parts2 = p2 :: t2 := by
                  cases parts2 with
                  | nil => simp at hlen2
                  | cons p2 t2 => exact ⟨p2, t2, rfl⟩
                refine ⟨(canonical_string_encoder k ++ ":" ++ String.join fs1) :: p2 :: t2,
                  ?_, ?_, by simp only [List.length_cons] at hlen2 ⊢; omega, ?_⟩
                · simp only [specEncodeItems, hsp1, hsp2]
                · rw [string_join_append, string_join_cons, string_join_cons, string_join_cons,
                    hjoin2, comma_join_cons_cons]
                  simp [String.append_assoc]
                · rw [floatsKvs_cons, hfl1, hfl2]
                  rfl
          · intro fs e h
            rcases hE : encAux v with ⟨fs1, err1⟩
            cases err1 with
            | some e1 =>
              have hA : encItems ((k, v) :: (k2, v2) :: rest) =
                  (canonical_string_encoder k :: ":" :: fs1, some e1) := by
                simp only [encItems, hE]
              rw [hA, Prod.mk.injEq, Option.some.injEq] at h
              obtain ⟨hsp1, r, hr, hmem⟩ := hVErr fs1 e1 hE
              rw [← h.2]
              refine ⟨by simp only [specEncodeItems, hsp1], r, hr, ?_⟩
              rw [floatsKvs_cons]
              exact List.mem_append_left _ hmem
            | none =>
              rcases hE2 : encItems ((k2, v2) :: rest) with ⟨fs2, err2⟩
              cases err2 with
              | none =>
                have hA : encItems ((k, v) :: (k2, v2) :: rest) =
                    (canonical_string_encoder k :: ":" :: fs1 ++ "," :: fs2, none) := by
                  simp only [encItems, hE, hE2]
                rw [hA] at h
                simp at h
              | some e2 =>
                have hA : encItems ((k, v) :: (k2, v2) :: rest) =
                    (canonical_string_encoder k :: ":" :: fs1 ++ "," :: fs2, some e2) := by
                  simp only [encItems, hE, hE2]
                rw [hA, Prod.mk.injEq, Option.some.injEq] at h
                obtain ⟨hsp1, hfl1⟩ := hVOk fs1 hE
                obtain ⟨hsp2, r, hr, hmem⟩ := hKErr fs2 e2 hE2
                rw [← h.2]
                refine ⟨by simp only [specEncodeItems, hsp1, hsp2], r, hr, ?_⟩
                rw [floatsKvs_cons]
                exact List.mem_append_right _ hmem

theorem logicEq_refl_fuel (n : Nat) :
    (∀ v, pySize v ≤ n → logicEq v v = true) ∧
    (∀ xs, pySizeList xs ≤ n → logicEqList xs xs = true) ∧
    (∀ l, pySizeKvs l ≤ n → logicEqKvs l l = true) := by
  induction n with
  | zero =>
    refine ⟨?_, ?_, ?_⟩
    · intro v hv
      have := pySize_pos v
      omega
    · intro xs hxs
      cases xs with
      | nil => simp [logicEqList]
      | cons x t =>
        simp only [pySizeList] at hxs
        omega
    · intro l hl
      cases l with
      | nil => simp [logicEqKvs]
      | cons p t =>
        obtain ⟨k, v⟩ := p
        simp only [pySizeKvs] at hl
        omega
  | succ n ih =>
    obtain ⟨ihV, ihL, ihK⟩ := ih
    refine ⟨?_, ?_, ?_⟩
    · intro v hv
      cases v with
      | str s => simp [logicEq]
      | bool b => simp [logicEq]
      | null => simp [logicEq]
      | int m => simp [logicEq]
      | float r => simp [logicEq]
      | arr xs =>
        simp only [logicEq]
        exact ihL xs (by simp only [pySize] at hv; omega)
      | obj kvs =>
        simp only [logicEq]
        exact ihK (sortKVs kvs)
          (by simp only [pySize] at hv; rw [pySizeKvs_sortKVs]; omega)
    · intro xs hxs
      cases xs with
      | nil => simp [logicEqList]
      | cons x t =>
        simp only [pySizeList] at hxs
        simp only [logicEqList, Bool.and_eq_true]
        exact ⟨ihV x (by omega), ihL t (by omega)⟩
    · intro l hl
      cases l with
      | nil => simp [logicEqKvs]
      | cons p t =>
        obtain ⟨k, v⟩ := p
        simp only [pySizeKvs] at hl
        simp only [logicEqKvs, Bool.and_eq_true]
        exact ⟨⟨by simp, ihV v (by omega)⟩, ihK t (by omega)⟩

theorem logicEq_refl (v : PyVal) : logicEq v v = true :=
  (logicEq_refl_fuel (pySize v)).1 v le_rfl

theorem logicEq_encAux_fuel (n : Nat) :
    (∀ v w, pySize v ≤ n → logicEq v w = true → encAux v = encAux w) ∧
    (∀ xs ys, pySizeList xs ≤ n → logicEqList xs ys = true → encList xs = encList ys) ∧
    (∀ l m, pySizeKvs l ≤ n → logicEqKvs l m = true → encItems l = encItems m) := by
  induction n with
  | zero =>
    refine ⟨?_, ?_, ?_⟩
    · intro v w hv
      have := pySize_pos v
      omega
    · intro xs ys hxs h
      cases xs with
      | nil =>
        cases ys with
        | nil => rfl
        | cons y t2 => simp [logicEqList] at h
      | cons x t =>
        simp only [pySizeList] at hxs
        omega
    · intro l m hl h
      cases l with
      | nil =>
        cases m with
        | nil => rfl
        | cons q t2 =>
          obtain ⟨k2, v2⟩ := q
          simp [logicEqKvs] at h
      | cons p t =>
        obtain ⟨k, v⟩ := p
        simp only [pySizeKvs] at hl
        omega
  | succ n ih =>
    obtain ⟨ihV, ihL, ihK⟩ := ih
    refine ⟨?_, ?_, ?_⟩
    · intro v w hv h
      cases v with
      | str s =>
        cases w <;> simp [logicEq] at h
        rw [h]
      | bool b =>
        cases w <;> simp [logicEq] at h
        rw [h]
      | null =>
        cases w <;> simp [logicEq] at h
        rfl
      | int m =>
        cases w <;> simp [logicEq] at h
        rw [h]
      | float r =>
        cases w <;> simp [logicEq] at h
        rw [h]
      | arr xs =>
        cases w <;> simp only [logicEq] at h <;> try simp at h
        rename_i ys
        simp only [encAux]
        rw [ihL xs ys (by simp only [pySize] at hv; omega) h]
      | obj kvs =>
        cases w <;> simp only [logicEq] at h <;> try simp at h
        rename_i kvs2
        simp only [encAux]
        rw [ihK (sortKVs kvs) (sortKVs kvs2)
          (by simp only [pySize] at hv; rw [pySizeKvs_sortKVs]; omega) h]
    · intro xs ys hxs h
      cases xs with
      | nil =>
        cases ys with
        | nil => rfl
        | cons y t2 => simp [logicEqList] at h
      | cons x t =>
        cases ys with
        | nil => simp [logicEqList] at h
        | cons y t2 =>
          simp only [logicEqList, Bool.and_eq_true] at h
          simp only [pySizeList] at hxs
          have hxy := ihV x y (by omega) h.1
          have htt := ihL t t2 (by omega) h.2
          cases t with
          | nil =>
            cases t2 with
            | nil =>
              simp only [encList]
              exact hxy
            | cons z t3 => simp [logicEqList] at h
          | cons a t' =>
            cases t2 with
            | nil =>
              obtain ⟨-, h2⟩ := h
              simp [logicEqList] at h2
            | cons a2 t2' =>
              simp only [encList]
              rw [hxy, htt]
    · intro l m hl h
      cases l with
      | nil =>
        cases m with
        | nil => rfl
        | cons q t2 =>
          obtain ⟨k2, v2⟩ := q
          simp [logicEqKvs] at h
      | cons p t =>
        obtain ⟨k, v⟩ := p
        cases m with
        | nil => simp [logicEqKvs] at h
        | cons q t2 =>
          obtain ⟨k2, v2⟩ := q
          simp only [logicEqKvs, Bool.and_eq_true] at h
          obtain ⟨⟨hk, hv12⟩, ht⟩ := h
          have hkeq : k = k2 := by
            simpa using hk
          simp only [pySizeKvs] at hl
          have hxy := ihV v v2 (by omega) hv12
          have htt := ihK t t2 (by omega) ht
          subst hkeq
          cases t with
          | nil =>
            cases t2 with
            | nil =>
              simp only [encItems]
              rw [hxy]
            | cons z t3 => simp [logicEqKvs] at ht
          | cons a t' =>
            obtain ⟨k3, v3⟩ := a
            cases t2 with
            | nil => simp [logicEqKvs] at ht
            | cons a2 t2' =>
              obtain ⟨k4, v4⟩ := a2
              simp only [encItems]
              rw [hxy, htt]

theorem natDigitsAux_eq (f : Nat) : ∀ n : Nat, n ≤ f → natDigitsAux f n = Nat.digits 10 n := by
  induction f with
  | zero =>
    intro n h
    have : n = 0 := by omega
    subst this
    simp [natDigitsAux]
  | succ f ih =>
    intro n h
    cases n with
    | zero => simp [natDigitsAux]
    | succ m =>
      rw [natDigitsAux]
      rw [Nat.digits_def' (by norm_num : (1 : Nat) < 10) (Nat.succ_pos m)]
      congr 1
      apply ih
      have h2 : (m + 1) / 10 < m + 1 := Nat.div_lt_self (Nat.succ_pos m) (by norm_num)
      omega

theorem natDigits_eq (n : Nat) : natDigits n = Nat.digits 10 n :=
  natDigitsAux_eq n n le_rfl

theorem digitChar_bounds : ∀ d < 10, '0' ≤ Nat.digitChar d ∧ Nat.digitChar d ≤ '9' := by decide

theorem digitChar_inj : ∀ d < 10, ∀ e < 10, Nat.digitChar d = Nat.digitChar e → d = e := by
  decide

theorem digitChar_eq_zero_iff : ∀ d < 10, (Nat.digitChar d = '0' ↔ d = 0) := by decide

theorem natReprChars_ne_nil (n : Nat) : natReprChars n ≠ [] := by
  rw [natReprChars]
  split
  · simp
  · rename_i h
    rw [natDigits_eq]
    simp [Nat.digits_ne_nil_iff_ne_zero.mpr h]

theorem natReprChars_digits (n : Nat) : ∀ c ∈ natReprChars n, '0' ≤ c ∧ c ≤ '9' := by
  intro c hc
  rw [natReprChars] at hc
  split at hc
  · simp at hc
    subst hc
    exact ⟨le_refl _, by decide⟩
  · rw [natDigits_eq] at hc
    simp only [List.mem_map, List.mem_reverse] at hc
    obtain ⟨d, hd, rfl⟩ := hc
    exact digitChar_bounds d (Nat.digits_lt_base (by norm_num) hd)

theorem natReprChars_head (n : Nat) (h : n ≠ 0) : (natReprChars n).head? ≠ some ('0') := by
  rw [natReprChars, if_neg h, natDigits_eq]
  have hne : Nat.digits 10 n ≠ [] := Nat.digits_ne_nil_iff_ne_zero.mpr h
  rw [List.head?_map, List.head?_reverse]
  rw [List.getLast?_eq_getLast _ hne]
  intro hcon
  simp only [Option.map_some', Option.some.injEq] at hcon
  have hlt : (Nat.digits 10 n).getLast hne < 10 :=
    Nat.digits_lt_base (by norm_num) (List.getLast_mem hne)
  exact Nat.getLast_digit_ne_zero 10 h ((digitChar_eq_zero_iff _ hlt).1 hcon)

theorem map_digitChar_inj : ∀ xs ys : List Nat, (∀ d ∈ xs, d < 10) → (∀ d ∈ ys, d < 10) →
    xs.map Nat.digitChar = ys.map Nat.digitChar → xs = ys := by
  intro xs
  induction xs with
  | nil =>
    intro ys _ _ h
    cases ys with
    | nil => rfl
    | cons y t => simp at h
  | cons x t ih =>
    intro ys hx hy h
    cases ys with
    | nil => simp at h
    | cons y t2 =>
      simp only [List.map_cons, List.cons.injEq] at h
      have hx1 : x = y :=
        digitChar_inj x (hx x (by simp)) y (hy y (by simp)) h.1
      have ht : t = t2 :=
        ih t2 (fun d hd => hx d (by simp [hd])) (fun d hd => hy d (by simp [hd])) h.2
      rw [hx1, ht]

theorem natReprChars_eq_singleton_zero (b : Nat) (h : natReprChars b = ['0']) : b = 0 := by
  by_contra hb
  rw [natReprChars, if_neg hb, natDigits_eq] at h
  have hne : Nat.digits 10 b ≠ [] := Nat.digits_ne_nil_iff_ne_zero.mpr hb
  cases hd : (Nat.digits 10 b).reverse with
  | nil => simp [hd] at h
  | cons d t =>
    rw [hd] at h
    simp only [List.map_cons, List.cons.injEq] at h
    obtain ⟨h1, h2⟩ := h
    have hmem : d ∈ Nat.digits 10 b := by
      have : d ∈ (Nat.digits 10 b).reverse := by rw [hd]; simp
      simpa using this
    have hlt : d < 10 := Nat.digits_lt_base (by norm_num) hmem
    have hd0 : d = 0 := (digitChar_eq_zero_iff d hlt).1 h1
    have ht : t = [] := by
      cases t with
      | nil => rfl
      | cons u t3 => simp at h2
    have hdig : Nat.digits 10 b = [0] := by
      have h3 : (Nat.digits 10 b).reverse = [0] := by rw [hd, hd0, ht]
      have h4 := congrArg List.reverse h3
      simpa using h4
    have h5 := congrArg (Nat.ofDigits 10) hdig
    rw [Nat.ofDigits_digits] at h5
    simp [Nat.ofDigits] at h5
    exact hb h5

theorem natReprChars_inj (a b : Nat) (h : natReprChars a = natReprChars b) : a = b := by
  by_cases ha : a = 0
  · by_cases hb : b = 0
    · rw [ha, hb]
    · subst ha
      have h0 : natReprChars 0 = ['0'] := by simp [natReprChars]
      rw [h0] at h
      exact (natReprChars_eq_singleton_zero b h.symm).symm
  · by_cases hb : b = 0
    · subst hb
      have h0 : natReprChars 0 = ['0'] := by simp [natReprChars]
      rw [h0] at h
      exact natReprChars_eq_singleton_zero a h
    · rw [natReprChars, if_neg ha, natReprChars, if_neg hb, natDigits_eq, natDigits_eq] at h
      have ha2 := map_digitChar_inj _ _
        (fun d hd => Nat.digits_lt_base (by norm_num) (by simpa using hd))
        (fun d hd => Nat.digits_lt_base (by norm_num) (by simpa using hd)) h
      have ha3 : Nat.digits 10 a = Nat.digits 10 b := by
        have := congrArg List.reverse ha2
        simpa using this
      have := congrArg (Nat.ofDigits 10) ha3
      rwa [Nat.ofDigits_digits, Nat.ofDigits_digits] at this

theorem natReprChars_head_not_minus (n : Nat) (c : Char) (t : List Char)
    (hB : natReprChars n = c :: t) : c ≠ '-' := by
  intro hc
  have hbound := natReprChars_digits n c (by rw [hB]; simp)
  rw [hc] at hbound
  exact absurd hbound.1 (by decide)

theorem intRepr_inj (m n : Int) (h : intRepr m = intRepr n) : m = n := by
  have hh : intReprChars m = intReprChars n := congrArg String.data h
  unfold intReprChars at hh
  by_cases hm : m < 0 <;> by_cases hn : n < 0
  · rw [if_pos hm, if_pos hn] at hh
    simp only [List.cons.injEq, true_and] at hh
    have := natReprChars_inj _ _ hh
    omega
  · rw [if_pos hm, if_neg hn] at hh
    exfalso
    cases hB : natReprChars n.natAbs with
    | nil => exact natReprChars_ne_nil _ hB
    | cons c t =>
      rw [hB] at hh
      simp only [List.cons.injEq] at hh
      exact natReprChars_head_not_minus n.natAbs c t hB hh.1.symm
  · rw [if_neg hm, if_pos hn] at hh
    exfalso
    cases hB : natReprChars m.natAbs with
    | nil => exact natReprChars_ne_nil _ hB
    | cons c t =>
      rw [hB] at hh
      simp only [List.cons.injEq] at hh
      exact natReprChars_head_not_minus m.natAbs c t hB hh.1
  · rw [if_neg hm, if_neg hn] at hh
    have := natReprChars_inj _ _ hh
    omega

theorem specEncode_of_floats_nil (v : PyVal) (h : floats v = []) :
    specEncode v = .ok (enc_str v) ∧ (encAux v).2 = none := by
  rcases hE : encAux v with ⟨fs, err⟩
  cases err with
  | none =>
    have h1 := ((enc_spec (pySize v)).1 v le_rfl).1 fs hE
    constructor
    · rw [enc_str, hE]
      exact h1.1
    · rfl
  | some e =>
    obtain ⟨-, r, -, hmem⟩ := ((enc_spec (pySize v)).1 v le_rfl).2 fs e hE
    rw [h] at hmem
    cases hmem

theorem encode_canonical_of_floats_nil (v : PyVal) (h : floats v = []) :
    encode_canonical v = .ok (enc_str v) := by
  have h2 := (specEncode_of_floats_nil v h).2
  rcases hE : encAux v with ⟨fs, err⟩
  rw [hE] at h2
  cases err with
  | none =>
    rw [encode_canonical, hE, enc_str, hE]
  | some e => simp at h2

theorem encode_canonical_eq_specEncode (v : PyVal) :
    encode_canonical v = specEncode v := by
  rcases hE : encAux v with ⟨fs, err⟩
  cases err with
  | none =>
    have h1 := ((enc_spec (pySize v)).1 v le_rfl).1 fs hE
    rw [encode_canonical, hE, h1.1]
  | some e =>
    have h1 := ((enc_spec (pySize v)).1 v le_rfl).2 fs e hE
    rw [encode_canonical, hE, h1.1]

theorem specEncodeItems_map (l : List (String × PyVal)) (h : floatsKvs l = []) :
    specEncodeItems l = .ok (l.map entry_str) := by
  induction l with
  | nil => simp [specEncodeItems]
  | cons p t ih =>
    obtain ⟨k, v⟩ := p
    rw [floatsKvs_cons, List.append_eq_nil] at h
    have h1 := (specEncode_of_floats_nil v h.1).1
    simp only [specEncodeItems, h1, ih h.2]
    simp [entry_str]

/-- C1: encoding is deterministic on logical structured values: `logicEq` is
reflexive, so two calls on the same value agree, and any two trees denoting
the same logical value (mapping insertion order ignored) produce identical
output strings, hence byte-identical UTF-8, in both the buffering and the
sink mode of `encode_canonical`. -/
theorem encode_canonical_deterministic :
    (∀ v, logicEq v v = true) ∧
    (∀ v w, logicEq v w = true →
      encode_canonical v = encode_canonical w ∧
      encode_canonical_sink v = encode_canonical_sink w) := by
  refine ⟨logicEq_refl, fun v w h => ?_⟩
  have hE := (logicEq_encAux_fuel (pySize v)).1 v w le_rfl h
  constructor
  · rw [encode_canonical, encode_canonical, hE]
  · rw [encode_canonical_sink, encode_canonical_sink, hE]

/-- C2: a mapping encodes as a left brace, the entries rendered as encoded
key, colon, encoded value, joined by commas, and a right brace; the entries
appear sorted by the ordinal (code-point, equivalently UTF-8 byte)
comparison of the raw key text, independently of insertion order (the
sorted entry list is a permutation of the input, is key-sorted, and is
invariant under permutations of a duplicate-free input); the empty mapping
encodes as exactly the two braces, and the two-entry example from the spec
encodes with its keys reordered. -/
theorem encode_canonical_mapping_spec :
    (∀ kvs, floatsKvs kvs = [] →
      encode_canonical (PyVal.obj kvs) =
        .ok ("\x7b" ++ comma_join ((sortKVs kvs).map entry_str) ++ "\x7d")) ∧
    (∀ kvs, List.Sorted (fun a b : String => a ≤ b) ((sortKVs kvs).map Prod.fst)) ∧
    (∀ kvs, List.Perm (sortKVs kvs) kvs) ∧
    (∀ kvs kvs2, List.Perm kvs kvs2 → (kvs.map Prod.fst).Nodup →
      sortKVs kvs = sortKVs kvs2) ∧
    encode_canonical (PyVal.obj []) = .ok ("\x7b\x7d") ∧
    encode_canonical (PyVal.obj [("y", PyVal.int 2), ("x", PyVal.int 3)]) =
      .ok ("\x7b\"x\":3,\"y\":2\x7d") := by
  refine ⟨?_, sortKVs_keys_sorted, sortKVs_perm, sortKVs_eq_of_perm, ?_, ?_⟩
  · intro kvs h
    have hobj : floats (PyVal.obj kvs) = [] := by
      simp only [floats]
      exact h
    rw [encode_canonical_of_floats_nil _ hobj]
    have hs := (specEncode_of_floats_nil _ hobj).1
    have htr : floatsKvs (sortKVs kvs) = [] := (floatsKvs_sortKVs_eq_nil kvs).2 h
    have h3 : specEncode (PyVal.obj kvs) =
        .ok ("\x7b" ++ comma_join ((sortKVs kvs).map entry_str) ++ "\x7d") := by
      simp only [specEncode, specEncodeItems_map _ htr]
    rw [hs] at h3
    simp only [Except.ok.injEq] at h3
    rw [h3]
  · simp +decide [encode_canonical, encAux, encItems, sortKVs, List.insertionSort]
  · simp +decide [encode_canonical, encAux, encItems, sortKVs, List.insertionSort,
      List.orderedInsert]

/-- C3: a string encodes as its text enclosed in double quotes with exactly
the double quote and the backslash escaped by a prefixed backslash; every
other character passes through unchanged (so a string free of those two
characters is emitted verbatim between the quotes), and the example from
the spec holds. -/
theorem encode_canonical_string_spec :
    (∀ s, encode_canonical (PyVal.str s) = .ok (canonical_string_encoder s)) ∧
    (∀ s, canonical_string_encoder s =
      String.mk ('"' :: (s.data.map escapeChar).flatten ++ ['"'])) ∧
    (∀ c, (c = '"' ∨ c = '\\') → escapeChar c = ['\\', c]) ∧
    (∀ c, c ≠ '"' → c ≠ '\\' → escapeChar c = [c]) ∧
    (∀ s, (∀ c ∈ s.data, c ≠ '"' ∧ c ≠ '\\') →
      encode_canonical (PyVal.str s) = .ok (String.mk ('"' :: s.data ++ ['"']))) ∧
    encode_canonical (PyVal.str ("a\"b\\c")) = .ok ("\"a\\\"b\\\\c\"") := by
  have h1 : ∀ s, encode_canonical (PyVal.str s) = .ok (canonical_string_encoder s) := by
    intro s
    simp only [encode_canonical, encAux]
    rw [string_join_singleton]
  refine ⟨h1, fun s => rfl, ?_, ?_, ?_, ?_⟩
  · intro c hc
    simp [escapeChar, hc]
  · intro c hc1 hc2
    simp [escapeChar, hc1, hc2]
  · intro s hs
    rw [h1 s]
    have hfl : ∀ l : List Char, (∀ c ∈ l, c ≠ '"' ∧ c ≠ '\\') →
        (l.map escapeChar).flatten = l := by
      intro l hl
      induction l with
      | nil => simp
      | cons c t ih =>
        have hc := hl c (by simp)
        simp only [List.map_cons, List.flatten_cons]
        rw [escapeChar, if_neg (by simp [hc.1, hc.2]), ih (fun d hd => hl d (by simp [hd]))]
        rfl
    rw [canonical_string_encoder, hfl s.data hs]
  · rw [h1]
    simp +decide [canonical_string_encoder, escapeChar]

/-- C4: any value containing an out-of-kind leaf (in particular a float)
anywhere in its tree makes the whole encode fail with the FormatError
carrying that leaf (whose repr the Python message embeds), in both output
modes; nothing is coerced or truncated and no string is produced. -/
theorem encode_canonical_rejects_floats (v : PyVal) (h : floats v ≠ []) :
    ∃ r, encode_canonical v = .error (PyVal.float r) ∧ r ∈ floats v ∧
      (∀ b, encode_canonical_ret v b = .error (PyVal.float r)) := by
  rcases hE : encAux v with ⟨fs, err⟩
  cases err with
  | none =>
    have h2 := ((enc_spec (pySize v)).1 v le_rfl).1 fs hE
    exact absurd h2.2 h
  | some e =>
    obtain ⟨-, r, rfl, hmem⟩ := ((enc_spec (pySize v)).1 v le_rfl).2 fs e hE
    refine ⟨r, by rw [encode_canonical, hE], hmem, fun b => by rw [encode_canonical_ret, hE]⟩

/-- C5: make_signable returns a value unchanged exactly when it already has
the envelope shape (a dict carrying a signed key); any other value is
wrapped as a dict with the value under signed and an empty list under
signatures. -/
theorem make_signable_spec (v : PyVal) :
    (isEnvelope v = true → make_signable v = v) ∧
    (isEnvelope v = false →
      make_signable v = PyVal.obj [("signed", v), ("signatures", PyVal.arr [])]) := by
  constructor <;> intro h <;> simp [make_signable, h]

/-- C6: make_signable is idempotent: wrapping an already wrapped payload
changes nothing, because the wrapper it builds carries a signed key. -/
theorem make_signable_idempotent (v : PyVal) :
    make_signable (make_signable v) = make_signable v := by
  by_cases h : isEnvelope v = true
  · simp [make_signable, h]
  · have h2 : isEnvelope v = false := by simpa using h
    have hw : make_signable v = PyVal.obj [("signed", v), ("signatures", PyVal.arr [])] := by
      rw [make_signable, if_neg (by simp [h2])]
    have h3 : isEnvelope (PyVal.obj [("signed", v), ("signatures", PyVal.arr [])]) = true := by
      simp [isEnvelope]
    rw [hw, make_signable, if_pos h3]

/-- C7: an integer encodes as its decimal digit text: the digits of its
absolute value with no leading zero (unless the value is zero itself),
preceded by a minus sign exactly for negative values — so no plus sign and
no exponent can occur; the representation is injective, hence integers of
any magnitude keep full precision, and negative zero is the integer zero
and prints as 0. -/
theorem encode_canonical_int_spec (n : Int) :
    encode_canonical (PyVal.int n) = .ok (intRepr n) ∧
    (∃ ds, intRepr n = String.mk ((if n < 0 then ['-'] else []) ++ ds) ∧ ds ≠ [] ∧
      (∀ c ∈ ds, '0' ≤ c ∧ c ≤ '9') ∧ (n ≠ 0 → ds.head? ≠ some ('0'))) ∧
    (∀ m, intRepr m = intRepr n → m = n) ∧
    intRepr (-(0 : Int)) = "0" := by
  refine ⟨?_, ⟨natReprChars n.natAbs, ?_, natReprChars_ne_nil _, natReprChars_digits _, ?_⟩,
    fun m hm => intRepr_inj m n hm, by decide⟩
  · simp only [encode_canonical, encAux]
    rw [string_join_singleton]
  · rw [intRepr]
    congr 1
    rw [intReprChars]
    split <;> simp
  · intro hn0
    apply natReprChars_head
    omega

/-- C8: the sink mode and the buffering mode of encode_canonical agree: an
independent buffering implementation written from the spec computes the
same result, and whenever a string is returned it equals the left-to-right
concatenation of the fragments the sink received. -/
theorem encode_canonical_modes_agree (v : PyVal) :
    specEncode v = encode_canonical v ∧
    (∀ s, encode_canonical v = .ok s → String.join (encode_canonical_sink v).1 = s) := by
  refine ⟨(encode_canonical_eq_specEncode v).symm, ?_⟩
  intro s hs
  rcases hE : encAux v with ⟨fs, err⟩
  cases err with
  | none =>
    rw [encode_canonical, hE] at hs
    simp only [Except.ok.injEq] at hs
    rw [encode_canonical_sink, hE, hs]
  | some e =>
    rw [encode_canonical, hE] at hs
    simp at hs

/-- C9 (amended): when the encode fails, no string is returned in either
mode: the error propagates out of encode_canonical both with and without a
sink, so the caller never sees a partial result as a return value.  (The
sink itself, however, may already have received fragments; see the
counterexample.) -/
theorem encode_canonical_failure_no_string (v : PyVal) (e : PyVal)
    (h : (encode_canonical_sink v).2 = some e) :
    encode_canonical v = .error e ∧
    (∀ b, encode_canonical_ret v b = .error e) := by
  rcases hE : encAux v with ⟨fs, err⟩
  rw [encode_canonical_sink, hE] at h
  cases err with
  | none => simp at h
  | some e2 =>
    simp only [Option.some.injEq] at h
    rw [← h]
    exact ⟨by rw [encode_canonical, hE], fun b => by rw [encode_canonical_ret, hE]⟩

/-- C9 is false as stated: on the failing input given here the sink has
already received the fragments for the opening bracket, the first element
and its separator by the time the error for the float is raised, so a
failed sink-mode encode does not leave the sink empty. -/
theorem encode_canonical_sink_partial_counterexample :
    encode_canonical_sink (PyVal.arr [PyVal.int 1, PyVal.float ("1.5")]) =
      (["[", "1", ","], some (PyVal.float ("1.5"))) ∧
    (["[", "1", ","] : List String) ≠ [] := by
  constructor
  · simp +decide [encode_canonical_sink, encAux, encList, intRepr, intReprChars,
      natReprChars, natDigits, natDigitsAux]
  · simp

/-- C10: with a sink supplied, encode_canonical returns Python None; the
encoded string is the return value only in the bufferless mode. -/
theorem encode_canonical_return_modes (v : PyVal)
    (h : (encode_canonical_sink v).2 = none) :
    encode_canonical_ret v true = .ok none ∧
    encode_canonical_ret v false = .ok (some (enc_str v)) ∧
    encode_canonical v = .ok (enc_str v) := by
  rcases hE : encAux v with ⟨fs, err⟩
  rw [encode_canonical_sink, hE] at h
  cases err with
  | some e => simp at h
  | none =>
    refine ⟨by rw [encode_canonical_ret, hE]; rfl, ?_, ?_⟩
    · rw [encode_canonical_ret, hE, enc_str, hE]
      rfl
    · rw [encode_canonical, hE, enc_str, hE]

/-- Witness for C1 at a concrete pair of mappings that differ only in
insertion order. -/
theorem encode_canonical_deterministic_witness :
    encode_canonical (PyVal.obj [("y", PyVal.int 2), ("x", PyVal.int 3)]) =
      encode_canonical (PyVal.obj [("x", PyVal.int 3), ("y", PyVal.int 2)]) :=
  (encode_canonical_deterministic.2 _ _ (by
    simp +decide [logicEq, logicEqKvs, logicEqList, sortKVs, List.insertionSort,
      List.orderedInsert])).1

/-- Witness for C2 at a concrete two-entry mapping. -/
theorem encode_canonical_mapping_spec_witness :
    encode_canonical (PyVal.obj [("b", PyVal.null), ("a", PyVal.bool true)]) =
      .ok ("\x7b" ++
        comma_join ((sortKVs [("b", PyVal.null), ("a", PyVal.bool true)]).map entry_str) ++
        "\x7d") :=
  encode_canonical_mapping_spec.1 _ (by simp +decide [floatsKvs, floats])

/-- Witness for C3 at a concrete escape-free string. -/
theorem encode_canonical_string_spec_witness :
    encode_canonical (PyVal.str ("hello")) =
      .ok (String.mk ('"' :: ("hello").data ++ ['"'])) :=
  encode_canonical_string_spec.2.2.2.2.1 _ (by decide)

/-- Witness for C4 at a mapping holding a float inside a nested sequence. -/
theorem encode_canonical_rejects_floats_witness :
    ∃ r, encode_canonical (PyVal.obj [("a", PyVal.arr [PyVal.float ("0.5")])]) =
        .error (PyVal.float r) ∧
      r ∈ floats (PyVal.obj [("a", PyVal.arr [PyVal.float ("0.5")])]) ∧
      (∀ b, encode_canonical_ret (PyVal.obj [("a", PyVal.arr [PyVal.float ("0.5")])]) b =
        .error (PyVal.float r)) :=
  encode_canonical_rejects_floats _ (by simp +decide [floats, floatsList, floatsKvs])

/-- Witness for C5 at the non-envelope value None. -/
theorem make_signable_spec_witness :
    make_signable PyVal.null =
      PyVal.obj [("signed", PyVal.null), ("signatures", PyVal.arr [])] :=
  (make_signable_spec PyVal.null).2 (by rfl)

/-- Witness for C7 at a concrete negative integer. -/
theorem encode_canonical_int_spec_witness :
    encode_canonical (PyVal.int (-10)) = .ok ("-10") := by
  have h := (encode_canonical_int_spec (-10)).1
  rwa [show intRepr (-10) = "-10" from by decide] at h

/-- Witness for C8 at a concrete two-element sequence. -/
theorem encode_canonical_modes_agree_witness :
    String.join (encode_canonical_sink (PyVal.arr [PyVal.int 1, PyVal.null])).1 =
      "[1,null]" :=
  (encode_canonical_modes_agree _).2 _ (by
    simp +decide [encode_canonical, encAux, encList, intRepr, intReprChars, natReprChars,
      natDigits, natDigitsAux])

/-- Witness for amended C9 at the failing input of the counterexample. -/
theorem encode_canonical_failure_no_string_witness :
    encode_canonical (PyVal.arr [PyVal.int 1, PyVal.float ("1.5")]) =
      .error (PyVal.float ("1.5")) :=
  (encode_canonical_failure_no_string _ _ (by
    simp +decide [encode_canonical_sink, encAux, encList, intRepr, intReprChars,
      natReprChars, natDigits, natDigitsAux])).1

/-- Witness for C10 at a concrete string payload. -/
theorem encode_canonical_return_modes_witness :
    encode_canonical_ret (PyVal.str ("x")) true = .ok none ∧
    encode_canonical_ret (PyVal.str ("x")) false =
      .ok (some (enc_str (PyVal.str ("x")))) := by
  have h := encode_canonical_return_modes (PyVal.str ("x")) (by
    simp +decide [encode_canonical_sink, encAux])
  exact ⟨h.1, h.2.1⟩
